import Mathlib

/-!
Shallow embedding of the rotor-cipher program ("Enigma Sudnogo Dnya",
src/main.rs): alphabet indexing, rotors, rotor blocks, reflector,
plugboard, machine construction and the encryption pass, plus the
key-space (bitness) estimator.  Rust `usize` values are modelled as
`Nat` (the program never subtracts below zero on the modelled paths),
Rust `Vec`/`String` as Lean lists, Rust `f64` as `ℝ`, and Rust panics
(`panic!` / `expect`) as `Option.none` results of construction.
-/

/-- Character-level case folding applied by `encrypt` through Rust's
`str::to_lowercase`, modelled for the character ranges relevant to the
two built-in alphabets: uppercase Basic Latin and uppercase Cyrillic
(including `Ё`) are mapped to their lowercase forms, every other
character is left unchanged. -/
def toLowerChar (c : Char) : Char :=
  if 'A' ≤ c ∧ c ≤ 'Z' then Char.ofNat (c.toNat + 32)
  else if 'А' ≤ c ∧ c ≤ 'Я' then Char.ofNat (c.toNat + 32)
  else if c = 'Ё' then 'ё'
  else c

/-- Configuration record (`ConfigData` in the source).  Rust `String`
fields holding character sequences are modelled as `List Char`; the
alphabet tag stays a `String` since the source only compares it with
the literal `"latin"`. -/
structure ConfigData where
  alphabet : String
  plugboard : List (Char × Char)
  blocks : List (List Char)
  rotor_positions : List (List Nat)

/-- Sparse character-to-index table (`AlphabetIndex` in the source). -/
structure AlphabetIndex where
  min : Nat
  indices : List (Option Nat)

/-- `AlphabetIndex::new`: computes the minimum and maximum code point of
the alphabet, allocates a dense table spanning that range, and records
each character's alphabet position at slot `code - min`.  The source
unwraps the min/max of a non-empty list; the model seeds the fold with
the head, which agrees on every non-empty alphabet (the only ones the
program builds). -/
def AlphabetIndex.new (alphabet : List Char) : AlphabetIndex :=
  let codes := alphabet.map Char.toNat
  let mn := codes.foldl Nat.min (codes.headD 0)
  let mx := codes.foldl Nat.max (codes.headD 0)
  let size := mx - mn + 1
  let indices :=
    alphabet.enum.foldl (fun acc p => acc.set (p.2.toNat - mn) (some p.1))
      (List.replicate size none)
  ⟨mn, indices⟩

/-- `AlphabetIndex::get`: range check against `[min, min + len - 1]`
followed by a table lookup. -/
def AlphabetIndex.get (m : AlphabetIndex) (c : Char) : Option Nat :=
  let code := c.toNat
  if code < m.min ∨ code > m.min + (m.indices.length - 1) then none
  else m.indices.getD (code - m.min) none

/-- `Rotor`: fixed shift, mutable position, alphabet size. -/
structure Rotor where
  shift : Nat
  position : Nat
  size : Nat
deriving DecidableEq

/-- `Rotor::new`: position starts at zero. -/
def Rotor.new (shift alphabet_len : Nat) : Rotor :=
  ⟨shift, 0, alphabet_len⟩

/-- `Rotor::encode_index`: forward `(idx + shift + position) % size`,
backward `(idx + size - ((shift + position) % size)) % size`. -/
def Rotor.encode_index (r : Rotor) (idx : Nat) (reverse : Bool) : Nat :=
  if reverse then
    (idx + r.size - ((r.shift + r.position) % r.size)) % r.size
  else
    (idx + r.shift + r.position) % r.size

/-- `Rotor::rotate`: step the position modulo `size` and report whether
it wrapped to zero. -/
def Rotor.rotate (r : Rotor) : Rotor × Bool :=
  let p := (r.position + 1) % r.size
  (⟨r.shift, p, r.size⟩, p = 0)

/-- `Rotor::save_position`. -/
def Rotor.save_position (r : Rotor) : Nat := r.position

/-- `Rotor::load_position`: stores `pos % size`, accepting any input. -/
def Rotor.load_position (r : Rotor) (pos : Nat) : Rotor :=
  { r with position := pos % r.size }

/-- Color-token table used by `Block::new`; an unknown token panics in
the source, modelled as `none`. -/
def shiftOfColor : Char → Option Nat
  | 'К' => some 1
  | 'Б' => some 2
  | 'Ч' => some 3
  | 'З' => some 5
  | 'Р' => some 4
  | 'О' => some 6
  | 'Ф' => some 7
  | 'С' => some 8
  | 'Г' => some 9
  | 'Л' => some 10
  | _ => none

/-- `Block`: an ordered chain of rotors. -/
structure Block where
  rotors : List Rotor
deriving DecidableEq

/-- Sequential collection of an iterator of fallible items, as Rust's
`collect` over a `map` whose closure may panic: the first failure
aborts the whole construction. -/
def mapOption {α β : Type} (f : α → Option β) : List α → Option (List β)
  | [] => some []
  | a :: l =>
    match f a with
    | none => none
    | some b => (mapOption f l).map (fun bs => b :: bs)

/-- `Block::new`: one rotor per color token, all sharing the alphabet
length; fails (source: panics) on an unknown token. -/
def Block.new (colors : List Char) (alphabet_len : Nat) : Option Block :=
  (mapOption (fun col => (shiftOfColor col).map
    (fun sh => Rotor.new sh alphabet_len)) colors).map Block.mk

/-- `Block::process_index`: forward composes the rotors in declared
order, reverse composes the backward operators in reverse order. -/
def Block.process_index (b : Block) (idx : Nat) (reverse : Bool) : Nat :=
  if reverse then
    b.rotors.reverse.foldl (fun i r => r.encode_index i true) idx
  else
    b.rotors.foldl (fun i r => r.encode_index i false) idx

/-- The carry loop inside `Block::rotate`: the head rotor always steps;
the carry propagates while rotors wrap and stops at the first rotor
that does not. -/
def rotateCarry : List Rotor → List Rotor
  | [] => []
  | r :: rest =>
    let rr := r.rotate
    if rr.2 then rr.1 :: rotateCarry rest else rr.1 :: rest

/-- `Block::rotate`. -/
def Block.rotate (b : Block) : Block :=
  ⟨rotateCarry b.rotors⟩

/-- `Block::save_positions`. -/
def Block.save_positions (b : Block) : List Nat :=
  b.rotors.map Rotor.save_position

/-- `Block::load_positions`: the source zips the rotors with the given
positions, so only the first `min` of the two lengths are loaded and
any remaining rotors keep their current position. -/
def Block.load_positions (b : Block) (pos : List Nat) : Block :=
  ⟨List.zipWith Rotor.load_position b.rotors pos ++ b.rotors.drop pos.length⟩

/-- `Reflector`: precomputed table `table[i] = len - 1 - i`. -/
structure Reflector where
  map_idx : List Nat
deriving DecidableEq

/-- `Reflector::new`. -/
def Reflector.new (alphabet : List Char) : Reflector :=
  ⟨(List.range alphabet.length).map (fun i => alphabet.length - 1 - i)⟩

/-- `Reflector::reflect_index`. -/
def Reflector.reflect_index (r : Reflector) (idx : Nat) : Nat :=
  r.map_idx.getD idx 0

/-- The cipher machine (`EnigmaSudnogoDnya` in the source). -/
structure EnigmaSudnogoDnya where
  alphabet : List Char
  index_map : AlphabetIndex
  plugboard_map : List Nat
  blocks : List Block
  reflector : Reflector

/-- The Latin built-in alphabet. -/
def latinChars : List Char := "abcdefghijklmnopqrstuvwxyz".toList

/-- The Cyrillic built-in alphabet. -/
def cyrChars : List Char := "абвгдеёжзийклмнопрстуфхцчшщъыьэюя".toList

/-- Alphabet selected by a configuration (`"latin"` or anything else,
which the source treats as Cyrillic). -/
def cfgAlphabet (cfg : ConfigData) : List Char :=
  if cfg.alphabet = "latin" then latinChars else cyrChars

/-- The index table a configuration's machine will use. -/
def cfgIndex (cfg : ConfigData) : AlphabetIndex :=
  AlphabetIndex.new (cfgAlphabet cfg)

/-- The plugboard-construction loop of `EnigmaSudnogoDnya::new`: starting
from the identity table, each pair `(a, b)` resolves both characters
(source: `expect`, modelled as `none` on failure) and then writes
`table[ia] = ib; table[ib] = ia`. -/
def buildPlugboard (im : AlphabetIndex) (pairs : List (Char × Char))
    (t : List Nat) : Option (List Nat) :=
  match pairs with
  | [] => some t
  | (a, b) :: rest =>
    match im.get a, im.get b with
    | some ia, some ib => buildPlugboard im rest ((t.set ia ib).set ib ia)
    | _, _ => none

/-- The rotor-position loading step of `EnigmaSudnogoDnya::new`: when the
outer length matches the block count each block loads its vector; a
non-empty mismatching list panics (modelled as `none`); an empty list
leaves the default zero positions. -/
def loadRotorPositions (blocks : List Block) (rp : List (List Nat)) :
    Option (List Block) :=
  if rp.length = blocks.length then
    some (List.zipWith Block.load_positions blocks rp)
  else if rp ≠ [] then none
  else some blocks

/-- `EnigmaSudnogoDnya::new`: selects the alphabet, builds the index
table, the plugboard, the blocks and the reflector, then loads the
starting rotor positions.  Every source panic becomes `none`. -/
def enigmaNew (cfg : ConfigData) : Option EnigmaSudnogoDnya :=
  match buildPlugboard (cfgIndex cfg) cfg.plugboard
      (List.range (cfgAlphabet cfg).length) with
  | none => none
  | some plugboard_map =>
    match mapOption (fun s => Block.new s (cfgAlphabet cfg).length) cfg.blocks with
    | none => none
    | some blocks0 =>
      match loadRotorPositions blocks0 cfg.rotor_positions with
      | none => none
      | some blocks =>
        some ⟨cfgAlphabet cfg, cfgIndex cfg, plugboard_map, blocks,
          Reflector.new (cfgAlphabet cfg)⟩

/-- The per-symbol index transform inside `encrypt`: plugboard, forward
through the blocks in order, reflector, backward through the blocks in
reverse order, plugboard again. -/
def encryptIndex (m : EnigmaSudnogoDnya) (idx : Nat) : Nat :=
  let i1 := m.plugboard_map.getD idx 0
  let i2 := m.blocks.foldl (fun i blk => blk.process_index i false) i1
  let i3 := m.reflector.reflect_index i2
  let i4 := m.blocks.reverse.foldl (fun i blk => blk.process_index i true) i3
  m.plugboard_map.getD i4 0

/-- The per-symbol stepping inside `encrypt`: every block rotates once. -/
def stepBlocks (m : EnigmaSudnogoDnya) : EnigmaSudnogoDnya :=
  { m with blocks := m.blocks.map Block.rotate }

/-- The processing loop of `encrypt` over the per-character index
options: a mapped index is transformed and the blocks step; an unmapped
character passes `none` through and steps nothing. -/
def processIndices (m : EnigmaSudnogoDnya) :
    List (Option Nat) → List (Option Nat) × EnigmaSudnogoDnya
  | [] => ([], m)
  | some idx :: rest =>
    let j := encryptIndex m idx
    let res := processIndices (stepBlocks m) rest
    (some j :: res.1, res.2)
  | none :: rest =>
    let res := processIndices m rest
    (none :: res.1, res.2)

/-- The output-reassembly loop of `encrypt`: a transformed index is
decoded through the alphabet (consuming one lowercased character), an
unmapped position copies the lowercased character through.  The ragged
case is unreachable in `encrypt` (the two lists always have equal
length). -/
def reconstructOut (alphabet : List Char) :
    List (Option Nat) → List Char → List Char
  | some idx :: os, _ :: ls => alphabet.getD idx ' ' :: reconstructOut alphabet os ls
  | none :: os, ch :: ls => ch :: reconstructOut alphabet os ls
  | _, _ => []

/-- `EnigmaSudnogoDnya::encrypt`: lowercase the message, map each
character through the index table, run the processing loop, and
reassemble the output; returns the output together with the mutated
machine (the source mutates `self`). -/
def encrypt (m : EnigmaSudnogoDnya) (msg : List Char) :
    List Char × EnigmaSudnogoDnya :=
  let lower := msg.map toLowerChar
  let input_indices := lower.map (fun ch => m.index_map.get ch)
  let res := processIndices m input_indices
  (reconstructOut m.alphabet res.1 lower, res.2)

/-- The rotor positions of every block of a machine, in order. -/
def blockPositions (m : EnigmaSudnogoDnya) : List (List Nat) :=
  m.blocks.map (fun b => b.rotors.map Rotor.position)

/-- Encrypt-then-encrypt with two machines built from the same
configuration (the program's decrypt command re-runs `encrypt` on a
fresh machine). -/
def roundTrip (cfg : ConfigData) (msg : List Char) : Option (List Char) :=
  (enigmaNew cfg).bind fun m1 =>
    (enigmaNew cfg).map fun m2 => (encrypt m2 (encrypt m1 msg).1).1

/-- `log2_factorial`: direct summation of `log2(i)` for `i` in `1..=n`,
with `f64` modelled as `ℝ` (hence noncomputable: exact real logarithms
have no executable form; the rounding behaviour of `f64` itself is
outside the model). -/
noncomputable def log2_factorial (n : Nat) : ℝ :=
  (List.range' 1 n).foldl (fun sum (i : Nat) => sum + Real.logb 2 (i : ℝ)) 0

/-- The key-space estimate computed by the benchmark branch of `main`:
`R · log2(A)` plus the plugboard term
`log2(A!) − log2((A − 2P)!) − P − log2(P!)`, with the factorial
argument produced by `saturating_sub` (Nat subtraction). -/
noncomputable def totalBitness (alphabet_len total_rotors plugboard_pairs : Nat) : ℝ :=
  let log2_positions := (total_rotors : ℝ) * Real.logb 2 (alphabet_len : ℝ)
  let log2_plugboard := log2_factorial alphabet_len
    - log2_factorial (alphabet_len - 2 * plugboard_pairs)
    - (plugboard_pairs : ℝ)
    - log2_factorial plugboard_pairs
  log2_positions + log2_plugboard

/-- The configuration of the spec's concrete scenario: Latin alphabet,
one block with rotors of shifts `1` and `2`, no plugboard pairs and
default starting positions. -/
def cfgC2 : ConfigData := ⟨"latin", [], [['К', 'Б']], []⟩

/-- A fresh rotor chain from a list of `(shift, size)` specifications
(positions start at zero, as in `Rotor::new`). -/
def rotorsInit (specs : List (Nat × Nat)) : List Rotor :=
  specs.map (fun p => Rotor.new p.1 p.2)

/-- Instrumented rotor chain: each rotor paired with the number of times
it has been advanced. -/
def stateInit (specs : List (Nat × Nat)) : List (Rotor × Nat) :=
  specs.map (fun p => (Rotor.new p.1 p.2, 0))

/-- Instrumented version of the `Block::rotate` carry loop: identical
control flow, additionally counting each `Rotor::rotate` call. -/
def blockRotateC : List (Rotor × Nat) → List (Rotor × Nat)
  | [] => []
  | (r, c) :: rest =>
    let rr := r.rotate
    if rr.2 then (rr.1, c + 1) :: blockRotateC rest else (rr.1, c + 1) :: rest

/-- Closed form of the odometer after `n` steps: rotor `i` sits at
position `(n / s₀ / … / sᵢ₋₁) % sᵢ` and has been advanced
`n / s₀ / … / sᵢ₋₁` times. -/
def stateAt : List (Nat × Nat) → Nat → List (Rotor × Nat)
  | [], _ => []
  | (sh, s) :: rest, n => (⟨sh, n % s, s⟩, n) :: stateAt rest (n / s)

/-- No character occurs in two different pairs of the list (self-pairs
are allowed). -/
def PlugPairsDisjoint (pairs : List (Char × Char)) : Prop :=
  pairs.Pairwise (fun p q => p.1 ≠ q.1 ∧ p.1 ≠ q.2 ∧ p.2 ≠ q.1 ∧ p.2 ≠ q.2)

/-- Fallback machine used only to name the machine of a witness
configuration (never reached on the witness path). -/
def junkMachine : EnigmaSudnogoDnya := ⟨[], ⟨0, []⟩, [], [], ⟨[]⟩⟩

/-- The machine of the C5 witness configuration. -/
def mC5 : EnigmaSudnogoDnya :=
  (enigmaNew ⟨"latin", [('a', 'b')], [['К']], []⟩).getD junkMachine

/-- Well-formedness of a machine: what `EnigmaSudnogoDnya::new` actually
establishes and what per-symbol stepping preserves. -/
structure MachineWF (m : EnigmaSudnogoDnya) : Prop where
  alpha_pos : 1 ≤ m.alphabet.length
  pb_lt : ∀ i < m.alphabet.length, m.plugboard_map.getD i 0 < m.alphabet.length
  pb_inv : ∀ i < m.alphabet.length,
    m.plugboard_map.getD (m.plugboard_map.getD i 0) 0 = i
  refl_eq : m.reflector = Reflector.new m.alphabet
  rotor_size : ∀ b ∈ m.blocks, ∀ r ∈ b.rotors, r.size = m.alphabet.length
  decode_ok : ∀ i < m.alphabet.length,
    m.index_map.get (m.alphabet.getD i ' ') = some i
  encode_ok : ∀ c i, m.index_map.get c = some i →
    i < m.alphabet.length ∧ m.alphabet.getD i ' ' = c
  lower_fix : ∀ c ∈ m.alphabet, toLowerChar c = c

/-- The index stream produced by the processing loop on a run of mapped
characters: each index is transformed with the current machine state and
the blocks step once per index. -/
def cipherIdxs (m : EnigmaSudnogoDnya) : List Nat → List Nat
  | [] => []
  | i :: rest => encryptIndex m i :: cipherIdxs (stepBlocks m) rest

set_option maxRecDepth 10000

/-! ### Rotor arithmetic -/

lemma encode_index_lt (r : Rotor) (h : 1 ≤ r.size) (idx : Nat) (rev : Bool) :
    r.encode_index idx rev < r.size := by
  unfold Rotor.encode_index
  cases rev <;> simp <;> exact Nat.mod_lt _ h

lemma fwd_eq_add_mod (r : Rotor) (idx : Nat) (hidx : idx < r.size) :
    r.encode_index idx false = (idx + (r.shift + r.position) % r.size) % r.size := by
  unfold Rotor.encode_index
  simp only [Bool.false_eq_true, if_false]
  rw [add_assoc, Nat.add_mod idx (r.shift + r.position) r.size,
    Nat.mod_eq_of_lt hidx]

lemma encode_back_forward (r : Rotor) (h : 1 ≤ r.size) (idx : Nat) (hidx : idx < r.size) :
    r.encode_index (r.encode_index idx false) true = idx := by
  have hm : (r.shift + r.position) % r.size < r.size := Nat.mod_lt _ h
  rw [fwd_eq_add_mod r idx hidx]
  unfold Rotor.encode_index
  simp only [if_true]
  rw [Nat.add_sub_assoc (le_of_lt hm), Nat.mod_add_mod]
  have hs : idx + (r.shift + r.position) % r.size
      + (r.size - (r.shift + r.position) % r.size) = idx + r.size := by omega
  rw [hs, Nat.add_mod_right, Nat.mod_eq_of_lt hidx]

lemma encode_forward_back (r : Rotor) (h : 1 ≤ r.size) (idx : Nat) (hidx : idx < r.size) :
    r.encode_index (r.encode_index idx true) false = idx := by
  have hm : (r.shift + r.position) % r.size < r.size := Nat.mod_lt _ h
  unfold Rotor.encode_index
  simp only [if_true, Bool.false_eq_true, if_false]
  rw [Nat.add_sub_assoc (le_of_lt hm), add_assoc, Nat.mod_add_mod,
    Nat.add_mod (idx + (r.size - (r.shift + r.position) % r.size)) (r.shift + r.position) r.size,
    Nat.mod_add_mod]
  have hs : idx + (r.size - (r.shift + r.position) % r.size)
      + (r.shift + r.position) % r.size = idx + r.size := by omega
  rw [hs, Nat.add_mod_right, Nat.mod_eq_of_lt hidx]

/-- C6: for every rotor with `size ≥ 1`, every shift and position, and
every index in `[0, size)`, the backward operator inverts the forward
operator and vice versa. -/
theorem C6_rotor_inverse (sh pos sz idx : Nat) (hsz : 1 ≤ sz) (hidx : idx < sz) :
    (Rotor.mk sh pos sz).encode_index ((Rotor.mk sh pos sz).encode_index idx false) true = idx
    ∧ (Rotor.mk sh pos sz).encode_index ((Rotor.mk sh pos sz).encode_index idx true) false = idx :=
  ⟨encode_back_forward ⟨sh, pos, sz⟩ hsz idx hidx,
   encode_forward_back ⟨sh, pos, sz⟩ hsz idx hidx⟩

theorem C6_witness :
    (Rotor.mk 3 7 26).encode_index ((Rotor.mk 3 7 26).encode_index 5 false) true = 5
    ∧ (Rotor.mk 3 7 26).encode_index ((Rotor.mk 3 7 26).encode_index 5 true) false = 5 :=
  C6_rotor_inverse 3 7 26 5 (by decide) (by decide)

/-- C10: `load_position` range-checks nothing — it stores `pos % size`
for any supplied offset — and construction, loading and rotation all
keep the position strictly below `size`. -/
theorem C10_rotor_positions (r : Rotor) (sh p : Nat) (h : 1 ≤ r.size) :
    (r.load_position p).position = p % r.size
    ∧ (r.load_position p).position < r.size
    ∧ (r.rotate).1.position < r.size
    ∧ (Rotor.new sh r.size).position = 0
    ∧ (Rotor.new sh r.size).position < r.size := by
  refine ⟨rfl, Nat.mod_lt _ h, Nat.mod_lt _ h, rfl, h⟩

theorem C10_witness :
    ((Rotor.mk 4 3 26).load_position 100).position = 100 % 26
    ∧ ((Rotor.mk 4 3 26).load_position 100).position < 26
    ∧ ((Rotor.mk 4 3 26).rotate).1.position < 26
    ∧ (Rotor.new 9 26).position = 0
    ∧ (Rotor.new 9 26).position < 26 :=
  C10_rotor_positions ⟨4, 3, 26⟩ 9 100 (by decide)

/-! ### The concrete scenario (C2) -/

/-- C2 (amended): encrypting `"a"` on the scenario configuration yields
`"t"`, after which the first rotor is at position `1` and the second
remains at position `0` (only a wrap of the first rotor would advance
the second). -/
theorem C2_scenario :
    (enigmaNew cfgC2).map (fun m =>
      ((encrypt m ['a']).1, blockPositions (encrypt m ['a']).2))
      = some (['t'], [[1, 0]]) := by decide

/-- C2 counterexample: the rotor positions after the scenario's single
symbol are not `[1, 1]` — the second rotor has not advanced. -/
theorem C2_counterexample :
    (enigmaNew cfgC2).map (fun m => blockPositions (encrypt m ['a']).2)
      ≠ some [[1, 1]] := by decide

/-! ### Key-space estimator (C9) -/

lemma log2_factorial_eq (n : Nat) :
    log2_factorial n = Real.logb 2 (Nat.factorial n : ℝ) := by
  induction n with
  | zero => simp [log2_factorial, Nat.factorial]
  | succ k ih =>
    unfold log2_factorial at ih ⊢
    rw [List.range'_concat, List.foldl_append, List.foldl_cons, List.foldl_nil, ih]
    have hk : (Nat.factorial k : ℝ) ≠ 0 := by
      exact_mod_cast Nat.factorial_ne_zero k
    have hk1 : ((1 + 1 * k : Nat) : ℝ) ≠ 0 := by
      push_cast; positivity
    rw [← Real.logb_mul hk hk1]
    congr 1
    rw [Nat.factorial_succ]
    push_cast
    ring

/-- C9: the benchmark's key-space estimate equals
`R · log2(A) + log2(A!) − log2((A − 2P)!) − P − log2(P!)` with
`log2(n!)` obtained by direct summation, and with the factorial
argument saturating at zero: when `2P > A` the subtracted term is
`log2(0!) = 0` and the estimate degenerates to
`R · log2(A) + log2(A!) − P − log2(P!)`. -/
theorem C9_keyspace (A R P : Nat) :
    totalBitness A R P =
      (R : ℝ) * Real.logb 2 (A : ℝ) + Real.logb 2 (Nat.factorial A : ℝ)
        - Real.logb 2 (Nat.factorial (A - 2 * P) : ℝ)
        - (P : ℝ) - Real.logb 2 (Nat.factorial P : ℝ)
    ∧ (2 * P > A →
      totalBitness A R P =
        (R : ℝ) * Real.logb 2 (A : ℝ) + Real.logb 2 (Nat.factorial A : ℝ)
          - (P : ℝ) - Real.logb 2 (Nat.factorial P : ℝ)) := by
  constructor
  · unfold totalBitness
    rw [log2_factorial_eq, log2_factorial_eq, log2_factorial_eq]
    ring
  · intro hPA
    unfold totalBitness
    rw [log2_factorial_eq, log2_factorial_eq, log2_factorial_eq]
    have hz : A - 2 * P = 0 := by omega
    rw [hz]
    simp [Nat.factorial]
    ring

theorem C9_witness :
    totalBitness 1 1 1 =
      ((1 : Nat) : ℝ) * Real.logb 2 ((1 : Nat) : ℝ) + Real.logb 2 (Nat.factorial 1 : ℝ)
        - ((1 : Nat) : ℝ) - Real.logb 2 (Nat.factorial 1 : ℝ) :=
  (C9_keyspace 1 1 1).2 (by decide)

/-! ### Odometer stepping (C7) -/

lemma blockRotateC_fst (l : List (Rotor × Nat)) :
    (blockRotateC l).map Prod.fst = rotateCarry (l.map Prod.fst) := by
  induction l with
  | nil => rfl
  | cons p rest ih =>
    obtain ⟨r, c⟩ := p
    simp only [blockRotateC, rotateCarry, List.map_cons]
    cases hb : (Rotor.rotate r).2 <;> simp [hb, ih]

lemma stateAt_zero (specs : List (Nat × Nat)) : stateAt specs 0 = stateInit specs := by
  induction specs with
  | nil => rfl
  | cons p rest ih =>
    obtain ⟨sh, s⟩ := p
    simp [stateAt, stateInit, Rotor.new, Nat.zero_mod, Nat.zero_div] at ih ⊢
    simpa [stateInit] using ih

lemma blockRotateC_stateAt (specs : List (Nat × Nat)) :
    ∀ n, blockRotateC (stateAt specs n) = stateAt specs (n + 1) := by
  induction specs with
  | nil => intro n; rfl
  | cons p rest ih =>
    obtain ⟨sh, s⟩ := p
    intro n
    simp only [stateAt, blockRotateC, Rotor.rotate]
    have hmod : (n % s + 1) % s = (n + 1) % s := Nat.mod_add_mod n s 1
    by_cases hd : s ∣ (n + 1)
    · have hz : (n + 1) % s = 0 := Nat.mod_eq_zero_of_dvd hd
      have hdiv : (n + 1) / s = n / s + 1 := Nat.succ_div_of_dvd hd
      simp [hmod, hz, hdiv, ih (n / s)]
    · have hz : (n + 1) % s ≠ 0 := fun h => hd (Nat.dvd_of_mod_eq_zero h)
      have hdiv : (n + 1) / s = n / s := by
        rw [Nat.succ_div, if_neg hd]
        exact Nat.add_zero _
      simp [hmod, hz, hdiv]

lemma blockRotateC_iterate (specs : List (Nat × Nat)) :
    ∀ n, blockRotateC^[n] (stateInit specs) = stateAt specs n := by
  intro n
  induction n with
  | zero => simp [stateAt_zero]
  | succ k ih =>
    rw [Function.iterate_succ_apply', ih, blockRotateC_stateAt]

lemma rotorsInit_eq_fst (specs : List (Nat × Nat)) :
    (stateInit specs).map Prod.fst = rotorsInit specs := by
  simp [stateInit, rotorsInit]

lemma rotateCarry_iterate (specs : List (Nat × Nat)) :
    ∀ n, rotateCarry^[n] (rotorsInit specs) = (stateAt specs n).map Prod.fst := by
  intro n
  induction n with
  | zero => simp [stateAt_zero, rotorsInit_eq_fst]
  | succ k ih =>
    rw [Function.iterate_succ_apply', ih, ← blockRotateC_fst, blockRotateC_stateAt]

lemma block_rotate_iterate (rs : List Rotor) :
    ∀ n, Block.rotate^[n] ⟨rs⟩ = ⟨rotateCarry^[n] rs⟩ := by
  intro n
  induction n with
  | zero => rfl
  | succ k ih =>
    rw [Function.iterate_succ_apply', ih, Function.iterate_succ_apply']
    rfl

/-- C7: block stepping is a strict odometer.  For a block whose rotors
have sizes `s0, s1, …` and start at zero: after `n` calls of
`Block::rotate` rotor `i` sits at `(n / s0 / … / sᵢ₋₁) % sᵢ` having been
advanced `n / s0 / … / sᵢ₋₁` times (the two `∀ n` conjuncts, through the
instrumented loop `blockRotateC` which projects onto the source loop);
in particular after `s0` calls the first rotor is back at `0` having
made the second rotor advance exactly once (and never before `s0`), and
after `s0 * s1` calls the third rotor has advanced exactly once. -/
theorem C7_odometer (sh0 sh1 s0 s1 : Nat) (rest : List (Nat × Nat))
    (h0 : 1 ≤ s0) (h1 : 1 ≤ s1) (hrest : ∀ p ∈ rest, 1 ≤ p.2) :
    (∀ n, Block.rotate^[n] ⟨rotorsInit ((sh0, s0) :: (sh1, s1) :: rest)⟩
        = ⟨(stateAt ((sh0, s0) :: (sh1, s1) :: rest) n).map Prod.fst⟩)
    ∧ (∀ n, blockRotateC^[n] (stateInit ((sh0, s0) :: (sh1, s1) :: rest))
        = stateAt ((sh0, s0) :: (sh1, s1) :: rest) n)
    ∧ ((stateAt ((sh0, s0) :: (sh1, s1) :: rest) s0).map Prod.snd).take 2 = [s0, 1]
    ∧ ((stateAt ((sh0, s0) :: (sh1, s1) :: rest) s0).map
        (fun q => q.1.position)).take 2 = [0, 1 % s1]
    ∧ (∀ m, m < s0 →
        ((stateAt ((sh0, s0) :: (sh1, s1) :: rest) m).map Prod.snd).take 2 = [m, 0])
    ∧ (∀ sh2 s2 rest2, rest = (sh2, s2) :: rest2 →
        ((stateAt ((sh0, s0) :: (sh1, s1) :: rest) (s0 * s1)).map Prod.snd).take 3
          = [s0 * s1, s1, 1]) := by
  refine ⟨?_, blockRotateC_iterate _, ?_, ?_, ?_, ?_⟩
  · intro n
    rw [block_rotate_iterate, rotateCarry_iterate]
  · simp [stateAt, Nat.div_self h0]
  · simp [stateAt, Nat.div_self h0, Nat.mod_self]
  · intro m hm
    simp [stateAt, Nat.mod_eq_of_lt hm, Nat.div_eq_of_lt hm]
  · intro sh2 s2 rest2 hres
    subst hres
    have hA : s0 * s1 / s0 = s1 := by
      rw [Nat.mul_div_cancel_left s1 h0]
    simp [stateAt, Nat.mul_mod_right, hA, Nat.div_self h1, Nat.mod_self]

theorem C7_witness :
    ((stateAt ((1, 2) :: (2, 3) :: [(4, 5)]) 2).map Prod.snd).take 2 = [2, 1] :=
  (C7_odometer 1 2 2 3 [(4, 5)] (by decide) (by decide) (by decide)).2.2.1

/-! ### Machine construction (C3, C4) -/

lemma buildPlugboard_isSome_iff (im : AlphabetIndex) :
    ∀ (pairs : List (Char × Char)) (t : List Nat),
      (buildPlugboard im pairs t).isSome ↔
        ∀ p ∈ pairs, (im.get p.1).isSome ∧ (im.get p.2).isSome := by
  intro pairs
  induction pairs with
  | nil => intro t; simp [buildPlugboard]
  | cons p rest ih =>
    obtain ⟨a, b⟩ := p
    intro t
    simp only [buildPlugboard]
    cases ha : im.get a <;> cases hb : im.get b <;> simp [ha, hb, ih]

lemma mapOption_isSome_iff {α β : Type} (f : α → Option β) :
    ∀ l : List α, (mapOption f l).isSome ↔ ∀ a ∈ l, (f a).isSome := by
  intro l
  induction l with
  | nil => simp [mapOption]
  | cons a l ih =>
    simp only [mapOption]
    cases hfa : f a <;> simp [hfa, ih]

lemma mapOption_forall₂ {α β : Type} (f : α → Option β) (R : α → β → Prop)
    (hR : ∀ a b, f a = some b → R a b) :
    ∀ l l', mapOption f l = some l' → List.Forall₂ R l l' := by
  intro l
  induction l with
  | nil =>
    intro l' h
    simp only [mapOption, Option.some_inj] at h
    subst h
    exact List.Forall₂.nil
  | cons a l ih =>
    intro l' h
    simp only [mapOption] at h
    cases hfa : f a with
    | none => rw [hfa] at h; simp at h
    | some b =>
      rw [hfa] at h
      cases hml : mapOption f l with
      | none => rw [hml] at h; simp at h
      | some bs =>
        rw [hml] at h
        simp only [Option.map_some', Option.some_inj] at h
        subst h
        exact List.Forall₂.cons (hR a b hfa) (ih bs hml)

lemma forall₂_map_eq {α β γ : Type} (g : β → γ) (h : α → γ) :
    ∀ {l : List α} {l' : List β},
      List.Forall₂ (fun a b => g b = h a) l l' → l'.map g = l.map h := by
  intro l l' hf
  induction hf with
  | nil => rfl
  | cons hab _ ih => simp [ih, hab]

lemma blockNew_isSome_iff (s : List Char) (N : Nat) :
    (Block.new s N).isSome ↔ ∀ ch ∈ s, (shiftOfColor ch).isSome := by
  unfold Block.new
  have hmap : (Option.map Block.mk (mapOption (fun col => (shiftOfColor col).map
      (fun sh => Rotor.new sh N)) s)).isSome
      = (mapOption (fun col => (shiftOfColor col).map
          (fun sh => Rotor.new sh N)) s).isSome := by
    cases mapOption (fun col => (shiftOfColor col).map (fun sh => Rotor.new sh N)) s <;> rfl
  rw [hmap, mapOption_isSome_iff]
  constructor <;>
    · intro h ch hm
      have hx := h ch hm
      cases hc : shiftOfColor ch <;> simp [hc] at hx ⊢

lemma loadRotorPositions_isSome_iff (blocks : List Block) (rp : List (List Nat)) :
    (loadRotorPositions blocks rp).isSome ↔
      (rp = [] ∨ rp.length = blocks.length) := by
  unfold loadRotorPositions
  by_cases h : rp.length = blocks.length
  · simp [h]
  · rw [if_neg h]
    by_cases he : rp = []
    · subst he
      rw [if_neg (by simp)]
      simp
    · rw [if_pos he]
      simp [h, he]

lemma loadRotorPositions_nil (blocks : List Block) :
    loadRotorPositions blocks [] = some blocks := by
  unfold loadRotorPositions
  by_cases h : ([] : List (List Nat)).length = blocks.length
  · rw [if_pos h]
    have hb : blocks = [] := by
      cases blocks with
      | nil => rfl
      | cons b bs => simp at h
    subst hb
    rfl
  · rw [if_neg h, if_neg (by simp)]

lemma enigmaNew_inv (cfg : ConfigData) (m : EnigmaSudnogoDnya)
    (h : enigmaNew cfg = some m) :
    ∃ pb blocks0 blocks,
      buildPlugboard (cfgIndex cfg) cfg.plugboard
          (List.range (cfgAlphabet cfg).length) = some pb
      ∧ mapOption (fun s => Block.new s (cfgAlphabet cfg).length) cfg.blocks = some blocks0
      ∧ loadRotorPositions blocks0 cfg.rotor_positions = some blocks
      ∧ m = ⟨cfgAlphabet cfg, cfgIndex cfg, pb, blocks, Reflector.new (cfgAlphabet cfg)⟩ := by
  unfold enigmaNew at h
  cases hpb : buildPlugboard (cfgIndex cfg) cfg.plugboard
      (List.range (cfgAlphabet cfg).length) with
  | none => simp only [hpb] at h; exact Option.noConfusion h
  | some pb =>
    simp only [hpb] at h
    cases hbl : mapOption (fun s => Block.new s (cfgAlphabet cfg).length) cfg.blocks with
    | none => simp only [hbl] at h; exact Option.noConfusion h
    | some blocks0 =>
      simp only [hbl] at h
      cases hld : loadRotorPositions blocks0 cfg.rotor_positions with
      | none => simp only [hld] at h; exact Option.noConfusion h
      | some blocks =>
        simp only [hld, Option.some_inj] at h
        exact ⟨pb, blocks0, blocks, rfl, rfl, hld, h.symm⟩

lemma enigmaNew_some (cfg : ConfigData) (pb : List Nat) (blocks0 blocks : List Block)
    (hpb : buildPlugboard (cfgIndex cfg) cfg.plugboard
        (List.range (cfgAlphabet cfg).length) = some pb)
    (hbl : mapOption (fun s => Block.new s (cfgAlphabet cfg).length) cfg.blocks
        = some blocks0)
    (hld : loadRotorPositions blocks0 cfg.rotor_positions = some blocks) :
    enigmaNew cfg = some ⟨cfgAlphabet cfg, cfgIndex cfg, pb, blocks,
      Reflector.new (cfgAlphabet cfg)⟩ := by
  unfold enigmaNew
  simp only [hpb, hbl, hld]

lemma enigmaNew_isSome_iff (cfg : ConfigData) :
    (enigmaNew cfg).isSome ↔
      ((∀ p ∈ cfg.plugboard,
          ((cfgIndex cfg).get p.1).isSome ∧ ((cfgIndex cfg).get p.2).isSome)
       ∧ (∀ s ∈ cfg.blocks, ∀ ch ∈ s, (shiftOfColor ch).isSome)
       ∧ (cfg.rotor_positions = [] ∨ cfg.rotor_positions.length = cfg.blocks.length)) := by
  constructor
  · intro h
    obtain ⟨m, hm⟩ := Option.isSome_iff_exists.mp h
    obtain ⟨pb, blocks0, blocks, hpb, hbl, hld, _⟩ := enigmaNew_inv cfg m hm
    have hlen : blocks0.length = cfg.blocks.length :=
      (List.Forall₂.length_eq (mapOption_forall₂ _ (fun _ _ => True)
        (fun _ _ _ => trivial) cfg.blocks blocks0 hbl)).symm
    refine ⟨?_, ?_, ?_⟩
    · exact (buildPlugboard_isSome_iff (cfgIndex cfg) cfg.plugboard
        (List.range (cfgAlphabet cfg).length)).mp (by rw [hpb]; rfl)
    · intro s hs
      have := (mapOption_isSome_iff (fun s => Block.new s (cfgAlphabet cfg).length)
        cfg.blocks).mp (by rw [hbl]; rfl) s hs
      exact (blockNew_isSome_iff s _).mp this
    · have := (loadRotorPositions_isSome_iff blocks0 cfg.rotor_positions).mp
        (by rw [hld]; rfl)
      rwa [hlen] at this
  · rintro ⟨hpairs, hcols, hlen⟩
    obtain ⟨pb, hpb⟩ := Option.isSome_iff_exists.mp
      ((buildPlugboard_isSome_iff (cfgIndex cfg) cfg.plugboard
        (List.range (cfgAlphabet cfg).length)).mpr hpairs)
    obtain ⟨blocks0, hbl⟩ := Option.isSome_iff_exists.mp
      ((mapOption_isSome_iff (fun s => Block.new s (cfgAlphabet cfg).length)
        cfg.blocks).mpr (fun s hs => (blockNew_isSome_iff s _).mpr (hcols s hs)))
    have hlen0 : blocks0.length = cfg.blocks.length :=
      (List.Forall₂.length_eq (mapOption_forall₂ _ (fun _ _ => True)
        (fun _ _ _ => trivial) cfg.blocks blocks0 hbl)).symm
    obtain ⟨blocks, hld⟩ := Option.isSome_iff_exists.mp
      ((loadRotorPositions_isSome_iff blocks0 cfg.rotor_positions).mpr
        (by rwa [hlen0]))
    rw [enigmaNew_some cfg pb blocks0 blocks hpb hbl hld]
    rfl

/-- C3 (amended): machine construction aborts (source: panics) exactly
on the plugboard conditions it actually checks — a pair character
outside the chosen alphabet is fatal, while a pair that reuses an
already-paired character or pairs a character with itself is silently
accepted (construction succeeds whenever every pair character resolves,
every color token is known, and the rotor-position shape check passes,
regardless of overlaps or self-pairs). -/
theorem C3_plugboard_validation (cfg : ConfigData) :
    ((∃ p ∈ cfg.plugboard,
        (cfgIndex cfg).get p.1 = none ∨ (cfgIndex cfg).get p.2 = none) →
      enigmaNew cfg = none)
    ∧ ((∀ p ∈ cfg.plugboard,
          ((cfgIndex cfg).get p.1).isSome ∧ ((cfgIndex cfg).get p.2).isSome) →
       (∀ s ∈ cfg.blocks, ∀ ch ∈ s, (shiftOfColor ch).isSome) →
       (cfg.rotor_positions = [] ∨ cfg.rotor_positions.length = cfg.blocks.length) →
       (enigmaNew cfg).isSome) := by
  constructor
  · intro hbad
    rw [← Option.not_isSome_iff_eq_none]
    intro hs
    obtain ⟨p, hp, hnone⟩ := hbad
    have := ((enigmaNew_isSome_iff cfg).mp hs).1 p hp
    cases hnone with
    | inl h1 => rw [h1] at this; exact absurd this.1 (by simp)
    | inr h2 => rw [h2] at this; exact absurd this.2 (by simp)
  · intro h1 h2 h3
    exact (enigmaNew_isSome_iff cfg).mpr ⟨h1, h2, h3⟩

/-- C3 counterexample: a self-pair `(a, a)` and an overlapping pair
list `(b, c), (d, c)` are both accepted by construction, contradicting
the claim that they abort it. -/
theorem C3_counterexample :
    (enigmaNew ⟨"latin", [('a', 'a')], [['К']], []⟩).isSome = true
    ∧ (enigmaNew ⟨"latin", [('b', 'c'), ('d', 'c')], [['К']], []⟩).isSome = true := by
  constructor <;> decide

theorem C3_witness :
    (enigmaNew ⟨"latin", [('a', 'b'), ('a', 'c')], [['К']], []⟩).isSome :=
  (C3_plugboard_validation ⟨"latin", [('a', 'b'), ('a', 'c')], [['К']], []⟩).2
    (by decide) (by decide) (Or.inl rfl)

lemma blockNew_positions (s : List Char) (N : Nat) (b : Block)
    (h : Block.new s N = some b) :
    b.rotors.map Rotor.position = s.map (fun _ => (0 : Nat)) := by
  unfold Block.new at h
  cases hmo : mapOption (fun col => (shiftOfColor col).map
      (fun sh => Rotor.new sh N)) s with
  | none => rw [hmo] at h; simp at h
  | some rs =>
    rw [hmo] at h
    simp only [Option.map_some', Option.some_inj] at h
    subst h
    refine forall₂_map_eq Rotor.position (fun _ => (0 : Nat)) ?_
    refine mapOption_forall₂ _ _ ?_ s rs hmo
    intro col r hr
    cases hc : shiftOfColor col with
    | none => rw [hc] at hr; simp at hr
    | some sh =>
      rw [hc] at hr
      simp only [Option.map_some', Option.some_inj] at hr
      subst hr
      rfl

/-- C4 (amended): with valid plugboard pairs and color tokens,
construction fails exactly when `rotor_positions` is non-empty and its
outer length differs from the block count; the inner lengths are never
checked (the zip silently truncates).  An empty `rotor_positions` is
accepted and leaves every rotor at position zero. -/
theorem C4_rotor_positions (cfg : ConfigData)
    (hpb : ∀ p ∈ cfg.plugboard,
      ((cfgIndex cfg).get p.1).isSome ∧ ((cfgIndex cfg).get p.2).isSome)
    (hcol : ∀ s ∈ cfg.blocks, ∀ ch ∈ s, (shiftOfColor ch).isSome) :
    ((enigmaNew cfg).isSome ↔
      (cfg.rotor_positions = [] ∨ cfg.rotor_positions.length = cfg.blocks.length))
    ∧ (cfg.rotor_positions = [] →
      (enigmaNew cfg).map blockPositions
        = some (cfg.blocks.map (fun s => s.map (fun _ => (0 : Nat))))) := by
  constructor
  · constructor
    · intro h
      exact ((enigmaNew_isSome_iff cfg).mp h).2.2
    · intro h
      exact (enigmaNew_isSome_iff cfg).mpr ⟨hpb, hcol, h⟩
  · intro hnil
    have hs : (enigmaNew cfg).isSome :=
      (enigmaNew_isSome_iff cfg).mpr ⟨hpb, hcol, Or.inl hnil⟩
    obtain ⟨m, hm⟩ := Option.isSome_iff_exists.mp hs
    obtain ⟨pb, blocks0, blocks, hpbE, hbl, hld, hmE⟩ := enigmaNew_inv cfg m hm
    rw [hnil, loadRotorPositions_nil] at hld
    have hb0 : blocks = blocks0 := (Option.some_inj.mp hld).symm
    subst hb0
    rw [hm, Option.map_some']
    congr 1
    have houter : List.Forall₂
        (fun (s : List Char) (b : Block) =>
          b.rotors.map Rotor.position = s.map (fun _ => (0 : Nat)))
        cfg.blocks blocks :=
      mapOption_forall₂ _ _ (fun s b hsb => blockNew_positions s _ b hsb) cfg.blocks
        blocks hbl
    have hmaps := forall₂_map_eq (fun (b : Block) => b.rotors.map Rotor.position)
      (fun (s : List Char) => s.map (fun _ => (0 : Nat))) houter
    rw [hmE]
    exact hmaps

/-- C4 counterexample: an inner rotor-position list of length 2 for a
block with a single rotor is accepted — construction succeeds and
silently drops the extra entry, contradicting the claimed inner-length
check. -/
theorem C4_counterexample :
    (enigmaNew ⟨"latin", [], [['К']], [[5, 7]]⟩).map blockPositions = some [[5]] := by
  decide

theorem C4_witness :
    (enigmaNew ⟨"latin", [], [['К']], []⟩).map blockPositions = some [[0]] :=
  (C4_rotor_positions ⟨"latin", [], [['К']], []⟩ (by decide) (by decide)).2 rfl

/-! ### Table lookup helpers and codec facts -/

lemma getD_set_self (l : List Nat) (i v : Nat) (h : i < l.length) :
    (l.set i v).getD i 0 = v := by
  rw [List.getD_eq_getElem?_getD, List.getElem?_set_self (by simpa using h)]
  rfl

lemma getD_set_ne (l : List Nat) (i j v : Nat) (h : i ≠ j) :
    (l.set i v).getD j 0 = l.getD j 0 := by
  rw [List.getD_eq_getElem?_getD, List.getElem?_set_ne h, ← List.getD_eq_getElem?_getD]

lemma getD_range (n i : Nat) (h : i < n) : (List.range n).getD i 0 = i := by
  rw [List.getD_eq_getElem _ _ (by simpa using h)]
  exact List.getElem_range _ _

lemma alphaIndex_encode (A : List Char) (N : Nat)
    (hslots : ∀ k ∈ List.range (AlphabetIndex.new A).indices.length,
      (((AlphabetIndex.new A).indices.getD k none).all
        (fun i => decide (i < N) &&
          decide (A.getD i ' ' = Char.ofNat ((AlphabetIndex.new A).min + k)))) = true) :
    ∀ c i, (AlphabetIndex.new A).get c = some i → i < N ∧ A.getD i ' ' = c := by
  intro c i h
  simp only [AlphabetIndex.get] at h
  by_cases hrange : c.toNat < (AlphabetIndex.new A).min ∨
      c.toNat > (AlphabetIndex.new A).min + ((AlphabetIndex.new A).indices.length - 1)
  · rw [if_pos hrange] at h
    exact absurd h (by simp)
  · rw [if_neg hrange] at h
    push_neg at hrange
    obtain ⟨h1, h2⟩ := hrange
    have hpos : 1 ≤ (AlphabetIndex.new A).indices.length := by
      by_contra hz
      have hlen0 : (AlphabetIndex.new A).indices.length = 0 := by omega
      have hnil : (AlphabetIndex.new A).indices = [] := List.length_eq_zero.mp hlen0
      rw [hnil] at h
      simp [List.getD] at h
    have hk : c.toNat - (AlphabetIndex.new A).min < (AlphabetIndex.new A).indices.length := by
      omega
    have hs := hslots (c.toNat - (AlphabetIndex.new A).min) (List.mem_range.mpr hk)
    rw [h] at hs
    simp only [Option.all_some, Bool.and_eq_true, decide_eq_true_eq] at hs
    refine ⟨hs.1, ?_⟩
    have hc : (AlphabetIndex.new A).min + (c.toNat - (AlphabetIndex.new A).min)
        = c.toNat := by omega
    rw [hc] at hs
    rw [hs.2, Char.ofNat_toNat]

lemma latin_encode :
    ∀ c i, (AlphabetIndex.new latinChars).get c = some i →
      i < 26 ∧ latinChars.getD i ' ' = c :=
  alphaIndex_encode latinChars 26 (by decide)

lemma cyr_encode :
    ∀ c i, (AlphabetIndex.new cyrChars).get c = some i →
      i < 33 ∧ cyrChars.getD i ' ' = c :=
  alphaIndex_encode cyrChars 33 (by decide)

lemma latin_decode :
    ∀ i ∈ List.range 26, (AlphabetIndex.new latinChars).get (latinChars.getD i ' ')
      = some i := by decide

lemma cyr_decode :
    ∀ i ∈ List.range 33, (AlphabetIndex.new cyrChars).get (cyrChars.getD i ' ')
      = some i := by decide

lemma cfg_encode (cfg : ConfigData) :
    ∀ c i, (cfgIndex cfg).get c = some i →
      i < (cfgAlphabet cfg).length ∧ (cfgAlphabet cfg).getD i ' ' = c := by
  unfold cfgIndex cfgAlphabet
  by_cases h : cfg.alphabet = "latin"
  · rw [if_pos h]
    intro c i hc
    have := latin_encode c i hc
    exact ⟨by simpa using this.1, this.2⟩
  · rw [if_neg h]
    intro c i hc
    have := cyr_encode c i hc
    exact ⟨by simpa using this.1, this.2⟩

lemma cfg_decode (cfg : ConfigData) :
    ∀ i < (cfgAlphabet cfg).length,
      (cfgIndex cfg).get ((cfgAlphabet cfg).getD i ' ') = some i := by
  unfold cfgIndex cfgAlphabet
  by_cases h : cfg.alphabet = "latin"
  · rw [if_pos h]
    intro i hi
    exact latin_decode i (List.mem_range.mpr (by simpa using hi))
  · rw [if_neg h]
    intro i hi
    exact cyr_decode i (List.mem_range.mpr (by simpa using hi))

lemma cfg_inj (cfg : ConfigData) :
    ∀ c c' i, (cfgIndex cfg).get c = some i → (cfgIndex cfg).get c' = some i →
      c = c' := by
  intro c c' i hc hc'
  have h1 := (cfg_encode cfg c i hc).2
  have h2 := (cfg_encode cfg c' i hc').2
  rw [← h1, ← h2]

/-! ### Plugboard involution (C5) -/

lemma buildPlugboard_involution (im : AlphabetIndex) (N : Nat)
    (henc : ∀ c i, im.get c = some i → i < N)
    (hinj : ∀ c c' i, im.get c = some i → im.get c' = some i → c = c') :
    ∀ (pairs : List (Char × Char)), PlugPairsDisjoint pairs →
    ∀ (t t' : List Nat),
      t.length = N →
      (∀ i < N, t.getD i 0 < N ∧ t.getD (t.getD i 0) 0 = i) →
      (∀ p ∈ pairs, ∀ ic, (im.get p.1 = some ic ∨ im.get p.2 = some ic) →
        t.getD ic 0 = ic) →
      buildPlugboard im pairs t = some t' →
      t'.length = N ∧ (∀ i < N, t'.getD i 0 < N ∧ t'.getD (t'.getD i 0) 0 = i) := by
  intro pairs
  induction pairs with
  | nil =>
    intro _ t t' hlen hinv _ h
    simp only [buildPlugboard, Option.some_inj] at h
    subst h
    exact ⟨hlen, hinv⟩
  | cons p rest ih =>
    obtain ⟨a, b⟩ := p
    intro hdisj t t' hlen hinv hfresh h
    simp only [buildPlugboard] at h
    cases ha : im.get a with
    | none => rw [ha] at h; simp at h
    | some ia =>
      cases hb : im.get b with
      | none => rw [ha, hb] at h; simp at h
      | some ib =>
        rw [ha, hb] at h
        have hiaN : ia < N := henc a ia ha
        have hibN : ib < N := henc b ib hb
        have hiaL : ia < t.length := by omega
        have hibL : ib < t.length := by omega
        have hfa : t.getD ia 0 = ia :=
          hfresh (a, b) (List.mem_cons_self _ _) ia (Or.inl ha)
        have hfb : t.getD ib 0 = ib :=
          hfresh (a, b) (List.mem_cons_self _ _) ib (Or.inr hb)
        have hlen₁ : ((t.set ia ib).set ib ia).length = N := by
          simp [hlen]
        have e_ib : ((t.set ia ib).set ib ia).getD ib 0 = ia :=
          getD_set_self _ _ _ (by simpa using hibL)
        have e_other : ∀ j, j ≠ ia → j ≠ ib →
            ((t.set ia ib).set ib ia).getD j 0 = t.getD j 0 := by
          intro j hja hjb
          rw [getD_set_ne _ _ _ _ (Ne.symm hjb), getD_set_ne _ _ _ _ (Ne.symm hja)]
        have e_ia : ia ≠ ib → ((t.set ia ib).set ib ia).getD ia 0 = ib := by
          intro hab
          rw [getD_set_ne _ _ _ _ (Ne.symm hab), getD_set_self _ _ _ hiaL]
        have hinv₁ : ∀ j < N, ((t.set ia ib).set ib ia).getD j 0 < N
            ∧ ((t.set ia ib).set ib ia).getD (((t.set ia ib).set ib ia).getD j 0) 0
              = j := by
          intro j hjN
          by_cases hj_b : j = ib
          · rw [hj_b, e_ib]
            refine ⟨hiaN, ?_⟩
            by_cases hab : ia = ib
            · rw [hab] at e_ib
              rw [hab]
              exact e_ib
            · exact e_ia hab
          · by_cases hj_a : j = ia
            · have hab : ia ≠ ib := fun hc => hj_b (hj_a.trans hc)
              rw [hj_a, e_ia hab]
              exact ⟨hibN, e_ib⟩
            · rw [e_other j hj_a hj_b]
              obtain ⟨hb1, hb2⟩ := hinv j hjN
              have hta : t.getD j 0 ≠ ia := by
                intro hc
                rw [hc, hfa] at hb2
                exact hj_a hb2.symm
              have htb : t.getD j 0 ≠ ib := by
                intro hc
                rw [hc, hfb] at hb2
                exact hj_b hb2.symm
              rw [e_other _ hta htb]
              exact ⟨hb1, hb2⟩
        have hpw := List.pairwise_cons.mp hdisj
        have hfresh₁ : ∀ p ∈ rest, ∀ ic,
            (im.get p.1 = some ic ∨ im.get p.2 = some ic) →
            ((t.set ia ib).set ib ia).getD ic 0 = ic := by
          intro q hq ic hic
          have hd := hpw.1 q hq
          have hic_a : ic ≠ ia := by
            intro hc
            rw [hc] at hic
            cases hic with
            | inl h1 => exact hd.1 (hinj a q.1 ia ha h1)
            | inr h2 => exact hd.2.1 (hinj a q.2 ia ha h2)
          have hic_b : ic ≠ ib := by
            intro hc
            rw [hc] at hic
            cases hic with
            | inl h1 => exact hd.2.2.1 (hinj b q.1 ib hb h1)
            | inr h2 => exact hd.2.2.2 (hinj b q.2 ib hb h2)
          rw [e_other ic hic_a hic_b]
          exact hfresh q (List.mem_cons_of_mem _ hq) ic hic
        exact ih hpw.2 _ t' hlen₁ hinv₁ hfresh₁ h

/-- C5 (amended): for every machine built from a configuration whose
pair list reuses no character across pairs, the plugboard table is an
involution on `[0, N)`: every entry is in range and `swap(swap(i)) = i`
(fixed points and 2-cycles only).  Without the disjointness condition
the fold can produce non-involutive tables (see the counterexample). -/
theorem C5_plugboard_involution (cfg : ConfigData) (m : EnigmaSudnogoDnya)
    (hm : enigmaNew cfg = some m) (hdisj : PlugPairsDisjoint cfg.plugboard) :
    ∀ i < m.alphabet.length,
      m.plugboard_map.getD i 0 < m.alphabet.length
      ∧ m.plugboard_map.getD (m.plugboard_map.getD i 0) 0 = i := by
  obtain ⟨pb, blocks0, blocks, hpbE, hbl, hld, hmE⟩ := enigmaNew_inv cfg m hm
  have henc : ∀ c i, (cfgIndex cfg).get c = some i → i < (cfgAlphabet cfg).length :=
    fun c i h => (cfg_encode cfg c i h).1
  have hinit : ∀ i < (cfgAlphabet cfg).length,
      (List.range (cfgAlphabet cfg).length).getD i 0 < (cfgAlphabet cfg).length
      ∧ (List.range (cfgAlphabet cfg).length).getD
          ((List.range (cfgAlphabet cfg).length).getD i 0) 0 = i := by
    intro i hi
    rw [getD_range _ _ hi, getD_range _ _ hi]
    exact ⟨hi, rfl⟩
  have hfresh : ∀ p ∈ cfg.plugboard, ∀ ic,
      ((cfgIndex cfg).get p.1 = some ic ∨ (cfgIndex cfg).get p.2 = some ic) →
      (List.range (cfgAlphabet cfg).length).getD ic 0 = ic := by
    intro p _ ic hic
    have hlt : ic < (cfgAlphabet cfg).length := by
      cases hic with
      | inl h1 => exact henc p.1 ic h1
      | inr h2 => exact henc p.2 ic h2
    exact getD_range _ _ hlt
  have hmain := buildPlugboard_involution (cfgIndex cfg) (cfgAlphabet cfg).length
    henc (cfg_inj cfg) cfg.plugboard hdisj
    (List.range (cfgAlphabet cfg).length) pb
    (List.length_range _) hinit hfresh hpbE
  rw [hmE]
  exact hmain.2

/-- C5 counterexample: the pair list `(a,b), (a,c)` (character `a`
reused) yields a machine whose table maps `swap(swap(b)) = c ≠ b`: the
constructed table is not an involution. -/
theorem C5_counterexample :
    (enigmaNew ⟨"latin", [('a', 'b'), ('a', 'c')], [['К']], []⟩).map
      (fun m => m.plugboard_map.getD (m.plugboard_map.getD 1 0) 0) = some 2
    ∧ (2 : Nat) ≠ 1 := by
  refine ⟨by decide, by decide⟩

theorem C5_witness :
    mC5.plugboard_map.getD 0 0 < mC5.alphabet.length
    ∧ mC5.plugboard_map.getD (mC5.plugboard_map.getD 0 0) 0 = 0 :=
  C5_plugboard_involution ⟨"latin", [('a', 'b')], [['К']], []⟩ mC5 (by rfl)
    (by unfold PlugPairsDisjoint; exact List.pairwise_singleton _ _) 0 (by decide)

/-! ### Pass-through of unmapped characters (C8) -/

lemma processIndices_fst_length (os : List (Option Nat)) :
    ∀ m, (processIndices m os).1.length = os.length := by
  induction os with
  | nil => intro m; rfl
  | cons o rest ih =>
    intro m
    cases o with
    | some idx => simp [processIndices, ih]
    | none => simp [processIndices, ih]

lemma reconstructOut_length (A : List Char) :
    ∀ (os : List (Option Nat)) (ls : List Char), os.length = ls.length →
      (reconstructOut A os ls).length = os.length := by
  intro os
  induction os with
  | nil => intro ls _; rfl
  | cons o rest ih =>
    intro ls h
    cases ls with
    | nil => simp at h
    | cons ch ls' =>
      cases o with
      | some idx => simp [reconstructOut, ih ls' (by simpa using h)]
      | none => simp [reconstructOut, ih ls' (by simpa using h)]

lemma encrypt_length (m : EnigmaSudnogoDnya) (msg : List Char) :
    (encrypt m msg).1.length = msg.length := by
  simp only [encrypt]
  rw [reconstructOut_length]
  · rw [processIndices_fst_length]
    simp
  · rw [processIndices_fst_length]
    simp

/-- C8: `encrypt` is total, and a character that the codec does not map
(after case folding) is copied through, case-folded, at its own
position: on input `c :: cs` with `c` unmapped the output is the folded
`c` followed by the encryption of `cs` from the *same* machine state
(no rotor steps, no other state change since the machine value is
untouched), and the output always has exactly one character per input
character. -/
theorem C8_passthrough (m : EnigmaSudnogoDnya) (c : Char) (cs msg : List Char)
    (hc : m.index_map.get (toLowerChar c) = none) :
    (encrypt m (c :: cs)).1 = toLowerChar c :: (encrypt m cs).1
    ∧ (encrypt m (c :: cs)).2 = (encrypt m cs).2
    ∧ (encrypt m msg).1.length = msg.length := by
  refine ⟨?_, ?_, encrypt_length m msg⟩
  · simp [encrypt, hc, processIndices, reconstructOut]
  · simp [encrypt, hc, processIndices]

theorem C8_witness :
    (encrypt mC5 ['!', 'a']).1 = toLowerChar '!' :: (encrypt mC5 ['a']).1
    ∧ (encrypt mC5 ['!', 'a']).2 = (encrypt mC5 ['a']).2
    ∧ (encrypt mC5 ['?']).1.length = (['?'] : List Char).length :=
  C8_passthrough mC5 '!' ['a'] ['?'] (by decide)

/-! ### Round-trip (C1): rotor, block and machine level inverses -/

lemma foldl_encode_lt (N : Nat) (hN : 1 ≤ N) (rev : Bool) :
    ∀ (rs : List Rotor), (∀ r ∈ rs, r.size = N) → ∀ idx, idx < N →
      rs.foldl (fun i r => r.encode_index i rev) idx < N := by
  intro rs
  induction rs with
  | nil => intro _ idx h; simpa using h
  | cons r rest ih =>
    intro hsz idx hidx
    simp only [List.foldl_cons]
    refine ih (fun r' hr' => hsz r' (List.mem_cons_of_mem _ hr')) _ ?_
    have hr : r.size = N := hsz r (List.mem_cons_self _ _)
    have := encode_index_lt r (by rw [hr]; exact hN) idx rev
    rwa [hr] at this

lemma foldl_back_fwd (N : Nat) (hN : 1 ≤ N) :
    ∀ (rs : List Rotor), (∀ r ∈ rs, r.size = N) → ∀ idx, idx < N →
      rs.reverse.foldl (fun i r => r.encode_index i true)
        (rs.foldl (fun i r => r.encode_index i false) idx) = idx := by
  intro rs
  induction rs with
  | nil => intro _ idx _; rfl
  | cons r rest ih =>
    intro hsz idx hidx
    have hr : r.size = N := hsz r (List.mem_cons_self _ _)
    have hrest : ∀ r' ∈ rest, r'.size = N :=
      fun r' hr' => hsz r' (List.mem_cons_of_mem _ hr')
    have h1 : r.encode_index idx false < N := by
      have := encode_index_lt r (by rw [hr]; exact hN) idx false
      rwa [hr] at this
    simp only [List.reverse_cons, List.foldl_cons, List.foldl_append,
      List.foldl_cons, List.foldl_nil]
    rw [ih hrest _ h1]
    have := encode_back_forward r (by rw [hr]; exact hN) idx (by rwa [hr])
    exact this

lemma foldl_fwd_back (N : Nat) (hN : 1 ≤ N) :
    ∀ (rs : List Rotor), (∀ r ∈ rs, r.size = N) → ∀ idx, idx < N →
      rs.foldl (fun i r => r.encode_index i false)
        (rs.reverse.foldl (fun i r => r.encode_index i true) idx) = idx := by
  intro rs
  induction rs with
  | nil => intro _ idx _; rfl
  | cons r rest ih =>
    intro hsz idx hidx
    have hr : r.size = N := hsz r (List.mem_cons_self _ _)
    have hrest : ∀ r' ∈ rest, r'.size = N :=
      fun r' hr' => hsz r' (List.mem_cons_of_mem _ hr')
    have hback : rest.reverse.foldl (fun i r => r.encode_index i true) idx < N := by
      refine foldl_encode_lt N hN true rest.reverse ?_ idx hidx
      intro r' hr'
      exact hrest r' (List.mem_reverse.mp hr')
    simp only [List.reverse_cons, List.foldl_append, List.foldl_cons, List.foldl_nil]
    have hstep := encode_forward_back r (by rw [hr]; exact hN)
      (rest.reverse.foldl (fun i r => r.encode_index i true) idx) (by rwa [hr])
    rw [hstep]
    exact ih hrest _ hidx

lemma block_process_lt (N : Nat) (hN : 1 ≤ N) (b : Block)
    (hsz : ∀ r ∈ b.rotors, r.size = N) (rev : Bool) (idx : Nat) (hidx : idx < N) :
    b.process_index idx rev < N := by
  unfold Block.process_index
  cases rev with
  | false =>
    simpa using foldl_encode_lt N hN false b.rotors hsz idx hidx
  | true =>
    simp only [if_true]
    exact foldl_encode_lt N hN true b.rotors.reverse
      (fun r hr => hsz r (List.mem_reverse.mp hr)) idx hidx

lemma block_back_fwd (N : Nat) (hN : 1 ≤ N) (b : Block)
    (hsz : ∀ r ∈ b.rotors, r.size = N) (idx : Nat) (hidx : idx < N) :
    b.process_index (b.process_index idx false) true = idx := by
  unfold Block.process_index
  simpa using foldl_back_fwd N hN b.rotors hsz idx hidx

lemma block_fwd_back (N : Nat) (hN : 1 ≤ N) (b : Block)
    (hsz : ∀ r ∈ b.rotors, r.size = N) (idx : Nat) (hidx : idx < N) :
    b.process_index (b.process_index idx true) false = idx := by
  unfold Block.process_index
  simpa using foldl_fwd_back N hN b.rotors hsz idx hidx

lemma blocks_fwd_lt (N : Nat) (hN : 1 ≤ N) :
    ∀ (bs : List Block), (∀ b ∈ bs, ∀ r ∈ b.rotors, r.size = N) → ∀ idx, idx < N →
      bs.foldl (fun i blk => blk.process_index i false) idx < N := by
  intro bs
  induction bs with
  | nil => intro _ idx h; simpa using h
  | cons b rest ih =>
    intro hsz idx hidx
    simp only [List.foldl_cons]
    exact ih (fun b' hb' => hsz b' (List.mem_cons_of_mem _ hb')) _
      (block_process_lt N hN b (hsz b (List.mem_cons_self _ _)) false idx hidx)

lemma blocks_back_lt (N : Nat) (hN : 1 ≤ N) :
    ∀ (bs : List Block), (∀ b ∈ bs, ∀ r ∈ b.rotors, r.size = N) → ∀ idx, idx < N →
      bs.foldl (fun i blk => blk.process_index i true) idx < N := by
  intro bs
  induction bs with
  | nil => intro _ idx h; simpa using h
  | cons b rest ih =>
    intro hsz idx hidx
    simp only [List.foldl_cons]
    exact ih (fun b' hb' => hsz b' (List.mem_cons_of_mem _ hb')) _
      (block_process_lt N hN b (hsz b (List.mem_cons_self _ _)) true idx hidx)

lemma blocks_back_fwd (N : Nat) (hN : 1 ≤ N) :
    ∀ (bs : List Block), (∀ b ∈ bs, ∀ r ∈ b.rotors, r.size = N) → ∀ idx, idx < N →
      bs.reverse.foldl (fun i blk => blk.process_index i true)
        (bs.foldl (fun i blk => blk.process_index i false) idx) = idx := by
  intro bs
  induction bs with
  | nil => intro _ idx _; rfl
  | cons b rest ih =>
    intro hsz idx hidx
    have hb : ∀ r ∈ b.rotors, r.size = N := hsz b (List.mem_cons_self _ _)
    have hrest : ∀ b' ∈ rest, ∀ r ∈ b'.rotors, r.size = N :=
      fun b' hb' => hsz b' (List.mem_cons_of_mem _ hb')
    have h1 : b.process_index idx false < N := block_process_lt N hN b hb false idx hidx
    simp only [List.reverse_cons, List.foldl_cons, List.foldl_append, List.foldl_nil]
    rw [ih hrest _ h1]
    exact block_back_fwd N hN b hb idx hidx

lemma blocks_fwd_back (N : Nat) (hN : 1 ≤ N) :
    ∀ (bs : List Block), (∀ b ∈ bs, ∀ r ∈ b.rotors, r.size = N) → ∀ idx, idx < N →
      bs.foldl (fun i blk => blk.process_index i false)
        (bs.reverse.foldl (fun i blk => blk.process_index i true) idx) = idx := by
  intro bs
  induction bs with
  | nil => intro _ idx _; rfl
  | cons b rest ih =>
    intro hsz idx hidx
    have hb : ∀ r ∈ b.rotors, r.size = N := hsz b (List.mem_cons_self _ _)
    have hrest : ∀ b' ∈ rest, ∀ r ∈ b'.rotors, r.size = N :=
      fun b' hb' => hsz b' (List.mem_cons_of_mem _ hb')
    have hback : rest.reverse.foldl (fun i blk => blk.process_index i true) idx < N := by
      refine blocks_back_lt N hN rest.reverse ?_ idx hidx
      intro b' hb'
      exact hrest b' (List.mem_reverse.mp hb')
    simp only [List.reverse_cons, List.foldl_append, List.foldl_cons, List.foldl_nil]
    rw [block_fwd_back N hN b hb _ hback]
    exact ih hrest _ hidx

lemma reflect_new_eq (A : List Char) (idx : Nat) (h : idx < A.length) :
    (Reflector.new A).reflect_index idx = A.length - 1 - idx := by
  unfold Reflector.new Reflector.reflect_index
  rw [List.getD_eq_getElem _ _ (by simpa using h)]
  rw [List.getElem_map, List.getElem_range]

lemma rotateCarry_sizes (N : Nat) :
    ∀ (rs : List Rotor), (∀ r ∈ rs, r.size = N) →
      ∀ r' ∈ rotateCarry rs, r'.size = N := by
  intro rs
  induction rs with
  | nil => intro _ r' hr'; simp [rotateCarry] at hr'
  | cons r rest ih =>
    intro hsz r' hr'
    have hr : r.size = N := hsz r (List.mem_cons_self _ _)
    have hrest : ∀ x ∈ rest, x.size = N :=
      fun x hx => hsz x (List.mem_cons_of_mem _ hx)
    simp only [rotateCarry] at hr'
    by_cases hw : (r.rotate).2
    · rw [if_pos hw] at hr'
      cases List.mem_cons.mp hr' with
      | inl h1 => rw [h1]; exact hr
      | inr h2 => exact ih hrest r' h2
    · rw [if_neg hw] at hr'
      cases List.mem_cons.mp hr' with
      | inl h1 => rw [h1]; exact hr
      | inr h2 => exact hrest r' h2

lemma stepBlocks_WF (m : EnigmaSudnogoDnya) (h : MachineWF m) :
    MachineWF (stepBlocks m) := by
  refine ⟨h.alpha_pos, h.pb_lt, h.pb_inv, h.refl_eq, ?_, h.decode_ok,
    h.encode_ok, h.lower_fix⟩
  intro b hb r hr
  simp only [stepBlocks, List.mem_map] at hb
  obtain ⟨b0, hb0, hbeq⟩ := hb
  subst hbeq
  exact rotateCarry_sizes m.alphabet.length b0.rotors (h.rotor_size b0 hb0) r hr

lemma encryptIndex_lt (m : EnigmaSudnogoDnya) (h : MachineWF m) (idx : Nat)
    (hidx : idx < m.alphabet.length) :
    encryptIndex m idx < m.alphabet.length := by
  unfold encryptIndex
  have h1 := h.pb_lt idx hidx
  have h2 := blocks_fwd_lt m.alphabet.length h.alpha_pos m.blocks h.rotor_size _ h1
  have h3 : m.reflector.reflect_index
      (m.blocks.foldl (fun i blk => blk.process_index i false)
        (m.plugboard_map.getD idx 0)) < m.alphabet.length := by
    rw [h.refl_eq, reflect_new_eq _ _ h2]
    omega
  have h4 := blocks_back_lt m.alphabet.length h.alpha_pos m.blocks.reverse
    (fun b hb => h.rotor_size b (List.mem_reverse.mp hb)) _ h3
  exact h.pb_lt _ h4

lemma encryptIndex_invol (m : EnigmaSudnogoDnya) (h : MachineWF m) (idx : Nat)
    (hidx : idx < m.alphabet.length) :
    encryptIndex m (encryptIndex m idx) = idx := by
  simp only [encryptIndex]
  have h1 := h.pb_lt idx hidx
  have h2 := blocks_fwd_lt m.alphabet.length h.alpha_pos m.blocks h.rotor_size _ h1
  have h3 : m.reflector.reflect_index
      (m.blocks.foldl (fun i blk => blk.process_index i false)
        (m.plugboard_map.getD idx 0)) < m.alphabet.length := by
    rw [h.refl_eq, reflect_new_eq _ _ h2]
    omega
  have h4 := blocks_back_lt m.alphabet.length h.alpha_pos m.blocks.reverse
    (fun b hb => h.rotor_size b (List.mem_reverse.mp hb)) _ h3
  rw [h.pb_inv _ h4]
  rw [blocks_fwd_back m.alphabet.length h.alpha_pos m.blocks h.rotor_size _ h3]
  rw [h.refl_eq, reflect_new_eq _ _ h2, reflect_new_eq _ _ (by omega)]
  have hrr : m.alphabet.length - 1 -
      (m.alphabet.length - 1 - m.blocks.foldl
        (fun i blk => blk.process_index i false) (m.plugboard_map.getD idx 0))
      = m.blocks.foldl (fun i blk => blk.process_index i false)
          (m.plugboard_map.getD idx 0) := by
    omega
  rw [hrr]
  rw [blocks_back_fwd m.alphabet.length h.alpha_pos m.blocks h.rotor_size _ h1]
  exact h.pb_inv idx hidx

lemma stepBlocks_alphabet (m : EnigmaSudnogoDnya) :
    (stepBlocks m).alphabet = m.alphabet := rfl

lemma processIndices_map_some :
    ∀ (idxs : List Nat) (m : EnigmaSudnogoDnya),
      (processIndices m (idxs.map some)).1 = (cipherIdxs m idxs).map some := by
  intro idxs
  induction idxs with
  | nil => intro m; rfl
  | cons i rest ih =>
    intro m
    simp only [List.map_cons, processIndices, cipherIdxs]
    rw [ih (stepBlocks m)]

lemma cipherIdxs_length :
    ∀ (idxs : List Nat) (m : EnigmaSudnogoDnya),
      (cipherIdxs m idxs).length = idxs.length := by
  intro idxs
  induction idxs with
  | nil => intro m; rfl
  | cons i rest ih => intro m; simp [cipherIdxs, ih]

lemma cipherIdxs_lt :
    ∀ (idxs : List Nat) (m : EnigmaSudnogoDnya), MachineWF m →
      (∀ i ∈ idxs, i < m.alphabet.length) →
      ∀ j ∈ cipherIdxs m idxs, j < m.alphabet.length := by
  intro idxs
  induction idxs with
  | nil => intro m _ _ j hj; simp [cipherIdxs] at hj
  | cons i rest ih =>
    intro m hWF hbound j hj
    simp only [cipherIdxs, List.mem_cons] at hj
    cases hj with
    | inl h1 =>
      rw [h1]
      exact encryptIndex_lt m hWF i (hbound i (List.mem_cons_self _ _))
    | inr h2 =>
      exact ih (stepBlocks m) (stepBlocks_WF m hWF)
        (fun x hx => hbound x (List.mem_cons_of_mem _ hx)) j h2

lemma cipherIdxs_invol :
    ∀ (idxs : List Nat) (m : EnigmaSudnogoDnya), MachineWF m →
      (∀ i ∈ idxs, i < m.alphabet.length) →
      cipherIdxs m (cipherIdxs m idxs) = idxs := by
  intro idxs
  induction idxs with
  | nil => intro m _ _; rfl
  | cons i rest ih =>
    intro m hWF hbound
    simp only [cipherIdxs]
    rw [encryptIndex_invol m hWF i (hbound i (List.mem_cons_self _ _)),
      ih (stepBlocks m) (stepBlocks_WF m hWF)
        (fun x hx => hbound x (List.mem_cons_of_mem _ hx))]

lemma reconstructOut_map_some (A : List Char) :
    ∀ (js : List Nat) (ls : List Char), js.length = ls.length →
      reconstructOut A (js.map some) ls = js.map (fun j => A.getD j ' ') := by
  intro js
  induction js with
  | nil => intro ls _; rfl
  | cons j rest ih =>
    intro ls h
    cases ls with
    | nil => simp at h
    | cons ch ls' =>
      simp only [List.map_cons, reconstructOut]
      rw [ih ls' (by simpa using h)]

lemma cfgAlphabet_pos (cfg : ConfigData) : 1 ≤ (cfgAlphabet cfg).length := by
  unfold cfgAlphabet
  split <;> decide

lemma cfg_lower_fix (cfg : ConfigData) :
    ∀ c ∈ cfgAlphabet cfg, toLowerChar c = c := by
  unfold cfgAlphabet
  split <;> decide

lemma mem_zipWith_ex {α β γ : Type} (f : α → β → γ) :
    ∀ (l : List α) (l' : List β) (c : γ), c ∈ List.zipWith f l l' →
      ∃ a ∈ l, ∃ b ∈ l', c = f a b := by
  intro l
  induction l with
  | nil => intro l' c hc; simp at hc
  | cons a rest ih =>
    intro l' c hc
    cases l' with
    | nil => simp at hc
    | cons b rest' =>
      simp only [List.zipWith_cons_cons, List.mem_cons] at hc
      cases hc with
      | inl h1 =>
        exact ⟨a, List.mem_cons_self _ _, b, List.mem_cons_self _ _, h1⟩
      | inr h2 =>
        obtain ⟨a', ha', b', hb', heq⟩ := ih rest' c h2
        exact ⟨a', List.mem_cons_of_mem _ ha', b', List.mem_cons_of_mem _ hb', heq⟩

lemma mapOption_mem {α β : Type} (f : α → Option β) :
    ∀ (l : List α) (l' : List β), mapOption f l = some l' →
      ∀ b ∈ l', ∃ a ∈ l, f a = some b := by
  intro l
  induction l with
  | nil =>
    intro l' h b hb
    simp only [mapOption, Option.some_inj] at h
    subst h
    simp at hb
  | cons a rest ih =>
    intro l' h b hb
    simp only [mapOption] at h
    cases hfa : f a with
    | none => rw [hfa] at h; simp at h
    | some b0 =>
      rw [hfa] at h
      cases hml : mapOption f rest with
      | none => rw [hml] at h; simp at h
      | some bs =>
        rw [hml] at h
        simp only [Option.map_some', Option.some_inj] at h
        subst h
        cases List.mem_cons.mp hb with
        | inl h1 =>
          exact ⟨a, List.mem_cons_self _ _, by rw [hfa, h1]⟩
        | inr h2 =>
          obtain ⟨a', ha', hfa'⟩ := ih bs hml b h2
          exact ⟨a', List.mem_cons_of_mem _ ha', hfa'⟩

lemma blockNew_sizes (s : List Char) (N : Nat) (b : Block)
    (h : Block.new s N = some b) :
    ∀ r ∈ b.rotors, r.size = N := by
  unfold Block.new at h
  cases hmo : mapOption (fun col => (shiftOfColor col).map
      (fun sh => Rotor.new sh N)) s with
  | none => rw [hmo] at h; simp at h
  | some rs =>
    rw [hmo] at h
    simp only [Option.map_some', Option.some_inj] at h
    subst h
    intro r hr
    obtain ⟨col, _, hcol⟩ := mapOption_mem _ s rs hmo r hr
    cases hc : shiftOfColor col with
    | none => rw [hc] at hcol; simp at hcol
    | some sh =>
      rw [hc] at hcol
      simp only [Option.map_some', Option.some_inj] at hcol
      rw [← hcol]
      rfl

lemma load_positions_sizes (N : Nat) (b : Block)
    (hb : ∀ r ∈ b.rotors, r.size = N) (pos : List Nat) :
    ∀ r ∈ (Block.load_positions b pos).rotors, r.size = N := by
  intro r hr
  simp only [Block.load_positions, List.mem_append] at hr
  cases hr with
  | inl h1 =>
    obtain ⟨r0, hr0, p, _, heq⟩ := mem_zipWith_ex Rotor.load_position b.rotors pos r h1
    rw [heq]
    exact hb r0 hr0
  | inr h2 =>
    exact hb r (List.mem_of_mem_drop h2)

lemma loadRotorPositions_sizes (N : Nat) (blocks0 blocks : List Block)
    (rp : List (List Nat))
    (h : loadRotorPositions blocks0 rp = some blocks)
    (h0 : ∀ b ∈ blocks0, ∀ r ∈ b.rotors, r.size = N) :
    ∀ b ∈ blocks, ∀ r ∈ b.rotors, r.size = N := by
  unfold loadRotorPositions at h
  by_cases h1 : rp.length = blocks0.length
  · rw [if_pos h1] at h
    simp only [Option.some_inj] at h
    subst h
    intro b hb
    obtain ⟨b0, hb0, pos, _, heq⟩ :=
      mem_zipWith_ex Block.load_positions blocks0 rp b hb
    rw [heq]
    exact load_positions_sizes N b0 (h0 b0 hb0) pos
  · rw [if_neg h1] at h
    by_cases h2 : rp = []
    · rw [if_neg (by simp [h2])] at h
      simp only [Option.some_inj] at h
      subst h
      exact h0
    · rw [if_pos h2] at h
      simp at h

lemma enigmaNew_WF (cfg : ConfigData) (m : EnigmaSudnogoDnya)
    (hm : enigmaNew cfg = some m) (hdisj : PlugPairsDisjoint cfg.plugboard) :
    MachineWF m ∧ m.alphabet = cfgAlphabet cfg := by
  obtain ⟨pb, blocks0, blocks, hpbE, hbl, hld, hmE⟩ := enigmaNew_inv cfg m hm
  have henc : ∀ c i, (cfgIndex cfg).get c = some i → i < (cfgAlphabet cfg).length :=
    fun c i h => (cfg_encode cfg c i h).1
  have hinit : ∀ i < (cfgAlphabet cfg).length,
      (List.range (cfgAlphabet cfg).length).getD i 0 < (cfgAlphabet cfg).length
      ∧ (List.range (cfgAlphabet cfg).length).getD
          ((List.range (cfgAlphabet cfg).length).getD i 0) 0 = i := by
    intro i hi
    rw [getD_range _ _ hi, getD_range _ _ hi]
    exact ⟨hi, rfl⟩
  have hfresh : ∀ p ∈ cfg.plugboard, ∀ ic,
      ((cfgIndex cfg).get p.1 = some ic ∨ (cfgIndex cfg).get p.2 = some ic) →
      (List.range (cfgAlphabet cfg).length).getD ic 0 = ic := by
    intro p _ ic hic
    have hlt : ic < (cfgAlphabet cfg).length := by
      cases hic with
      | inl h1 => exact henc p.1 ic h1
      | inr h2 => exact henc p.2 ic h2
    exact getD_range _ _ hlt
  have hmain := buildPlugboard_involution (cfgIndex cfg) (cfgAlphabet cfg).length
    henc (cfg_inj cfg) cfg.plugboard hdisj
    (List.range (cfgAlphabet cfg).length) pb
    (List.length_range _) hinit hfresh hpbE
  have hsizes0 : ∀ b ∈ blocks0, ∀ r ∈ b.rotors, r.size = (cfgAlphabet cfg).length := by
    intro b hb
    obtain ⟨s, _, hs⟩ := mapOption_mem _ cfg.blocks blocks0 hbl b hb
    exact blockNew_sizes s _ b hs
  have hsizes : ∀ b ∈ blocks, ∀ r ∈ b.rotors, r.size = (cfgAlphabet cfg).length :=
    loadRotorPositions_sizes _ blocks0 blocks cfg.rotor_positions hld hsizes0
  subst hmE
  refine ⟨⟨cfgAlphabet_pos cfg, ?_, ?_, rfl, hsizes, cfg_decode cfg,
    cfg_encode cfg, cfg_lower_fix cfg⟩, rfl⟩
  · intro i hi
    exact (hmain.2 i hi).1
  · intro i hi
    exact (hmain.2 i hi).2

lemma encrypt_roundtrip (m : EnigmaSudnogoDnya) (hWF : MachineWF m)
    (msg : List Char) (hmsg : ∀ c ∈ msg, c ∈ m.alphabet) :
    (encrypt m (encrypt m msg).1).1 = msg := by
  have hget : ∀ c ∈ msg, ∃ i, m.index_map.get c = some i := by
    intro c hc
    obtain ⟨n, hn, hcn⟩ := List.getElem_of_mem (hmsg c hc)
    refine ⟨n, ?_⟩
    have := hWF.decode_ok n hn
    rwa [List.getD_eq_getElem _ _ hn, hcn] at this
  have hmap_get : msg.map (fun ch => m.index_map.get ch)
      = (msg.map (fun c => (m.index_map.get c).getD 0)).map some := by
    rw [List.map_map]
    refine List.map_congr_left ?_
    intro c hc
    obtain ⟨i, hi⟩ := hget c hc
    simp [hi]
  have hjs_lt : ∀ j ∈ msg.map (fun c => (m.index_map.get c).getD 0),
      j < m.alphabet.length := by
    intro j hj
    simp only [List.mem_map] at hj
    obtain ⟨c, hc, hcj⟩ := hj
    obtain ⟨i, hi⟩ := hget c hc
    rw [← hcj, hi]
    simpa using (hWF.encode_ok c i hi).1
  have hlower : msg.map toLowerChar = msg := by
    rw [List.map_congr_left (fun c hc => hWF.lower_fix c (hmsg c hc))]
    exact List.map_id' msg
  have hlen1 : (cipherIdxs m (msg.map (fun c => (m.index_map.get c).getD 0))).length
      = msg.length := by
    rw [cipherIdxs_length, List.length_map]
  have henc1 : (encrypt m msg).1
      = (cipherIdxs m (msg.map (fun c => (m.index_map.get c).getD 0))).map
          (fun j => m.alphabet.getD j ' ') := by
    simp only [encrypt]
    rw [hlower, hmap_get, processIndices_map_some]
    exact reconstructOut_map_some m.alphabet _ _ hlen1
  have hcipher_lt : ∀ j ∈ cipherIdxs m (msg.map (fun c => (m.index_map.get c).getD 0)),
      j < m.alphabet.length :=
    cipherIdxs_lt _ m hWF hjs_lt
  have hlower2 : ((cipherIdxs m (msg.map (fun c => (m.index_map.get c).getD 0))).map
      (fun j => m.alphabet.getD j ' ')).map toLowerChar
      = (cipherIdxs m (msg.map (fun c => (m.index_map.get c).getD 0))).map
          (fun j => m.alphabet.getD j ' ') := by
    refine List.map_congr_left ?_ |>.trans (List.map_id' _)
    intro ch hch
    simp only [List.mem_map] at hch
    obtain ⟨j, hj, hje⟩ := hch
    have hjN := hcipher_lt j hj
    refine hWF.lower_fix ch ?_
    rw [← hje, List.getD_eq_getElem _ _ hjN]
    exact List.getElem_mem _
  have hmap_get2 : ((cipherIdxs m (msg.map (fun c => (m.index_map.get c).getD 0))).map
      (fun j => m.alphabet.getD j ' ')).map (fun ch => m.index_map.get ch)
      = (cipherIdxs m (msg.map (fun c => (m.index_map.get c).getD 0))).map some := by
    rw [List.map_map]
    refine List.map_congr_left ?_
    intro j hj
    simp only [Function.comp]
    exact hWF.decode_ok j (hcipher_lt j hj)
  have hlen2 : (msg.map (fun c => (m.index_map.get c).getD 0)).length
      = ((cipherIdxs m (msg.map (fun c => (m.index_map.get c).getD 0))).map
          (fun j => m.alphabet.getD j ' ')).length := by
    rw [List.length_map, List.length_map, cipherIdxs_length, List.length_map]
  rw [henc1]
  simp only [encrypt]
  rw [hlower2, hmap_get2, processIndices_map_some,
    cipherIdxs_invol _ m hWF hjs_lt,
    reconstructOut_map_some m.alphabet _ _ hlen2,
    List.map_map]
  have hpt : ∀ c ∈ msg,
      ((fun j => m.alphabet.getD j ' ') ∘ fun c => (m.index_map.get c).getD 0) c
        = c := by
    intro c hc
    obtain ⟨i, hi⟩ := hget c hc
    simp only [Function.comp, hi, Option.getD_some]
    exact (hWF.encode_ok c i hi).2
  rw [List.map_congr_left hpt]
  exact List.map_id' msg

/-- C1 (amended): for any configuration that builds successfully and
whose plugboard pairs reuse no character across pairs, and any text of
in-alphabet characters, encrypting with one machine built from the
configuration and running a second machine built from the same
configuration on the ciphertext reproduces the (already case-folded)
original text exactly.  Without the pair-disjointness condition the
plugboard need not be an involution and the round trip can fail (see
the counterexample). -/
theorem C1_roundtrip (cfg : ConfigData) (hsome : (enigmaNew cfg).isSome)
    (hdisj : PlugPairsDisjoint cfg.plugboard) (msg : List Char)
    (hmsg : ∀ c ∈ msg, c ∈ cfgAlphabet cfg) :
    roundTrip cfg msg = some msg := by
  obtain ⟨m, hm⟩ := Option.isSome_iff_exists.mp hsome
  obtain ⟨hWF, halpha⟩ := enigmaNew_WF cfg m hm hdisj
  unfold roundTrip
  rw [hm]
  simp only [Option.some_bind, Option.map_some', Option.some_inj]
  exact encrypt_roundtrip m hWF msg (fun c hc => by rw [halpha]; exact hmsg c hc)

/-- C1 counterexample: with the overlapping pair list `(a,b), (a,c)`
(a configuration that construction accepts), encrypting `"b"` and
decrypting the result yields `"c"`, not `"b"`: the round trip fails for
a machine-buildable configuration. -/
theorem C1_counterexample :
    roundTrip ⟨"latin", [('a', 'b'), ('a', 'c')], [['К']], []⟩ ['b'] = some ['c']
    ∧ (some ['c'] : Option (List Char)) ≠ some ['b'] :=
  ⟨by decide, by decide⟩

theorem C1_witness :
    roundTrip ⟨"latin", [('a', 'b')], [['К']], []⟩ ['h', 'i'] = some ['h', 'i'] :=
  C1_roundtrip ⟨"latin", [('a', 'b')], [['К']], []⟩ (by decide)
    (by unfold PlugPairsDisjoint; exact List.pairwise_singleton _ _)
    ['h', 'i'] (by decide)
